import Mathlib

/-!
Shallow embedding of the core of the sqlfluff linter
(file src/sqlfluff/core/linter.py) together with theorems checking the
frozen claims about it.

Strings are modelled as lists of characters (Python slicing `s[a:b]`
becomes drop/take), half-open ranges `[start, stop)` as pairs of naturals,
and the stateful fix loop of `Linter.lint_string` as an explicit
fuel-indexed recursion over a state record.  Components of the repository
that live outside the single source file (the templater, the segment tree,
the rule crawlers) are taken as parameters, exactly as `lint_string` and
`fix_string` consume them through their interfaces.
-/

namespace SqlFluff

/-- A Python string, modelled as a list of characters. -/
abbrev Str := List Char

/-- A half-open range `[start, stop)` of source offsets (a Python slice). -/
abbrev SRange := Nat × Nat

/-- A source-space patch: a source range together with its replacement text
(linter.py lines 239-248 produce these from templated-space patches). -/
abbrev Patch := SRange × Str

/-- Python slicing `s[a:b]` on character lists. -/
def subStr (s : Str) (r : SRange) : Str := (s.drop r.1).take (r.2 - r.1)

/-- Deduplication of source-space patches, keeping first occurrences:
mirrors linter.py lines 252-254, the comprehension
keeping `patch` when it does not occur among the earlier patches. -/
def dedupe (ps : List Patch) : List Patch :=
  ((ps.enum).filter (fun ip => !((ps.take ip.1).contains ip.2))).map Prod.snd

/-- The inner while loop of the slice-buffer construction
(linter.py lines 263-272): pop untouchable slices whose start lies before
the start of the current patch, emitting a pre-slice for any gap and then
the untouchable slice itself.  Arguments: remaining untouchables, start of
the current patch, current source index.  Returns the remaining
untouchables, the new source index and the slices appended to the buffer. -/
def popUntouchables : List SRange → Nat → Nat → List SRange × Nat × List SRange
  | [], _, sourceIdx => ([], sourceIdx, [])
  | u :: rest, patchStart, sourceIdx =>
    if u.1 < patchStart then
      let pre : List SRange := if u.1 > sourceIdx then [(sourceIdx, u.1)] else []
      let r := popUntouchables rest patchStart u.2
      (r.1, r.2.1, pre ++ u :: r.2.2)
    else (u :: rest, sourceIdx, [])

/-- One step of the slice-buffer construction for a single patch
(linter.py lines 261-292).  State: remaining untouchables, current source
index, buffer built so far. -/
def patchStep (st : List SRange × Nat × List SRange) (p : Patch) :
    List SRange × Nat × List SRange :=
  let r := popUntouchables st.1 p.1.1 st.2.1
  let idx' := r.2.1
  let buff := st.2.2 ++ r.2.2
  if p.1.1 > idx' then (r.1, p.1.2, buff ++ [(idx', p.1.1), p.1])
  else if p.1.1 < idx' then (r.1, idx', buff)
  else (r.1, p.1.2, buff ++ [p.1])

/-- The final slice buffer of `LintedFile.fix_string`
(linter.py lines 259-295): fold the patches through `patchStep` and append
the tail slice when the source is not yet exhausted. -/
def buildSliceBuff (ps : List Patch) (us : List SRange) (srcLen : Nat) :
    List SRange :=
  let r := ps.foldl patchStep (us, 0, ([] : List SRange))
  if r.2.1 < srcLen then r.2.2 ++ [(r.2.1, srcLen)] else r.2.2

/-- Rendering of a single slice of the buffer (linter.py lines 301-321):
the first patch whose source range equals the slice supplies the
replacement text, otherwise the raw source text of the slice is copied. -/
def renderSlice (ps : List Patch) (source : Str) (r : SRange) : Str :=
  match ps.find? (fun p => p.1 == r) with
  | some p => p.2
  | none => subStr source r

/-- The string-building loop of `fix_string` (linter.py lines 300-321). -/
def renderAll (ps : List Patch) (source : Str) (buff : List SRange) : Str :=
  buff.foldl (fun acc r => acc ++ renderSlice ps source r) []

/-- Model of `LintedFile.fix_string` from the deduplication step on
(linter.py lines 250-325).  The templated-space patch derivation and the
slice map live outside the source file under scrutiny, so the source-space
patches and the untouchable source ranges are inputs.  Returns the new
source string and the success flag `str_buff != original_source`. -/
def fix_string (source : Str) (patches : List Patch) (us : List SRange) :
    Str × Bool :=
  let ps := dedupe patches
  let buff := buildSliceBuff ps us source.length
  let out := renderAll ps source buff
  (out, out != source)

/-- A list of ranges tiles `[a, b)`: each range starts where the previous
one stopped, ranges are well formed, and the last one stops at `b`. -/
def tiles : Nat → Nat → List SRange → Prop
  | a, b, [] => a = b
  | a, b, r :: rest => r.1 = a ∧ r.1 ≤ r.2 ∧ tiles r.2 b rest

/-- Decidability of the tiling predicate, by structural recursion. -/
def tilesDec : (a b : Nat) → (l : List SRange) → Decidable (tiles a b l)
  | a, b, [] => inferInstanceAs (Decidable (a = b))
  | a, b, r :: rest =>
    haveI : Decidable (tiles r.2 b rest) := tilesDec r.2 b rest
    inferInstanceAs (Decidable (r.1 = a ∧ r.1 ≤ r.2 ∧ tiles r.2 b rest))

instance (a b : Nat) (l : List SRange) : Decidable (tiles a b l) :=
  tilesDec a b l

/-- Well-formedness of a deduplicated patch list with respect to a source
of length `len`: patches are ordered and pairwise disjoint, with well
formed ranges inside the source. -/
def patchesWF (ps : List Patch) (len : Nat) : Prop :=
  ps.Pairwise (fun p q => p.1.2 ≤ q.1.1) ∧
  ∀ p ∈ ps, p.1.1 ≤ p.1.2 ∧ p.1.2 ≤ len

/-- Well-formedness of the untouchable ranges: sorted, pairwise disjoint
(as the claims assume), nonempty and inside the source. -/
def untouchablesWF (us : List SRange) (len : Nat) : Prop :=
  us.Pairwise (fun u v => u.2 ≤ v.1) ∧
  ∀ u ∈ us, u.1 < u.2 ∧ u.2 ≤ len

/-- Every patch range is disjoint from every untouchable range. -/
def patchesUntouchablesDisjoint (ps : List Patch) (us : List SRange) : Prop :=
  ∀ p ∈ ps, ∀ u ∈ us, p.1.2 ≤ u.1 ∨ u.2 ≤ p.1.1

instance (ps : List Patch) (len : Nat) : Decidable (patchesWF ps len) := by
  unfold patchesWF; infer_instance

instance (us : List SRange) (len : Nat) : Decidable (untouchablesWF us len) := by
  unfold untouchablesWF; infer_instance

instance (ps : List Patch) (us : List SRange) :
    Decidable (patchesUntouchablesDisjoint ps us) := by
  unfold patchesUntouchablesDisjoint; infer_instance

/-! The fix loop of `Linter.lint_string` (linter.py lines 741-823).
The segment tree, the edit sets and the rule crawlers are external to the
source file, so they are parameters of the model. -/

/-- The tree interface used by the fix loop: `raw` text of a tree and
`apply_fixes`, which returns the new tree and the residual fixes. -/
structure TreeModel (T F : Type) where
  raw : T → Str
  applyFixes : T → List F → T × List F

/-- A rule crawler: its code and its `crawl` function, returning the
linting errors and the proposed fixes (the two used components of the
four-tuple returned in linter.py line 772). -/
structure Crawler (T E F : Type) where
  code : Str
  crawl : T → Bool → List E × List F

/-- State of one iteration of the fix loop over the rule crawlers. -/
structure IterState (T E F : Type) where
  working : T
  previousVersions : List Str
  lintingErrors : List E
  lastFixes : Option (List F)
  changed : Bool

/-- The body of the crawler loop for one crawler
(linter.py lines 772-803): run the crawler, accumulate its errors, and in
fix mode attempt to apply nonempty fixes, skipping an edit set equal to
`last_fixes` and skipping a commit whose raw text was already seen. -/
def crawlerStep {T E F : Type} [DecidableEq F] (M : TreeModel T F)
    (fix : Bool) (c : Crawler T E F) (st : IterState T E F) :
    IterState T E F :=
  let res := c.crawl st.working fix
  let st1 := { st with lintingErrors := st.lintingErrors ++ res.1 }
  if fix ∧ res.2 ≠ [] then
    if st1.lastFixes = some res.2 then st1
    else
      let st2 := { st1 with lastFixes := some res.2 }
      let applied := M.applyFixes st2.working res.2
      if M.raw applied.1 ∈ st2.previousVersions then st2
      else
        { st2 with
          working := applied.1
          previousVersions := st2.previousVersions ++ [M.raw applied.1]
          changed := true }
  else st1

/-- One full iteration over all rule crawlers (linter.py lines 765-803). -/
def runRules {T E F : Type} [DecidableEq F] (M : TreeModel T F) (fix : Bool)
    (crawlers : List (Crawler T E F)) (st : IterState T E F) :
    IterState T E F :=
  crawlers.foldl (fun s c => crawlerStep M fix c s) st

/-- State carried across iterations of the fix loop.  `snapshot` models
the local variable `initial_linting_errors`: `none` while unassigned. -/
structure LoopState (T E F : Type) where
  working : T
  previousVersions : List Str
  lintingErrors : List E
  lastFixes : Option (List F)
  snapshot : Option (List E)
  parsedOut : T

/-- Result of the fix loop: the final state, whether the runaway-limit
warning fired, and the value of `fix_loop_idx` at exit. -/
structure LoopOut (T E F : Type) where
  final : LoopState T E F
  warned : Bool
  finalIdx : Nat

/-- The `while True` fix loop of `lint_string`
(linter.py lines 756-815), as a fuel-indexed recursion.  The second
numeric argument is the current `fix_loop_idx` (incremented on entry);
`none` means the fuel ran out before the loop exited. -/
def lintLoop {T E F : Type} [DecidableEq F] (M : TreeModel T F)
    (crawlers : List (Crawler T E F)) (fix : Bool) (loopLimit : Nat) :
    Nat → Nat → LoopState T E F → Option (LoopOut T E F)
  | 0, _, _ => none
  | fuel + 1, idx, st =>
    let idx1 := idx + 1
    if idx1 > loopLimit then some ⟨st, true, idx1⟩
    else
      let ist := runRules M fix crawlers
        ⟨st.working, st.previousVersions, st.lintingErrors, st.lastFixes, false⟩
      let st1 : LoopState T E F :=
        { working := ist.working
          previousVersions := ist.previousVersions
          lintingErrors := ist.lintingErrors
          lastFixes := ist.lastFixes
          snapshot := st.snapshot
          parsedOut := st.parsedOut }
      let st2 := if idx1 = 1 then { st1 with snapshot := some ist.lintingErrors }
                 else st1
      if idx1 = 1 ∧ fix = false then
        some ⟨{ st2 with parsedOut := st2.working }, false, idx1⟩
      else if ist.changed = false then some ⟨st2, false, idx1⟩
      else lintLoop M crawlers fix loopLimit fuel idx1
        { st2 with parsedOut := st2.working }

/-- The starting state of the fix loop for a freshly parsed tree
(linter.py lines 749-753). -/
def initLoopState {T E F : Type} (M : TreeModel T F) (parsed : T) :
    LoopState T E F :=
  ⟨parsed, [M.raw parsed], [], none, none, parsed⟩

/-- The starting per-iteration state for iteration 1. -/
def initIterState {T E F : Type} (M : TreeModel T F) (parsed : T) :
    IterState T E F :=
  ⟨parsed, [M.raw parsed], [], none, false⟩

/-- The loop state after completing iteration 1 in fix mode with a
committed change: the snapshot holds the iteration-1 errors and the
returned tree tracks the working tree. -/
def afterFirstIteration {T E F : Type} [DecidableEq F] (M : TreeModel T F)
    (crawlers : List (Crawler T E F)) (st : LoopState T E F) :
    LoopState T E F :=
  let ist := runRules M true crawlers
    ⟨st.working, st.previousVersions, st.lintingErrors, st.lastFixes, false⟩
  ⟨ist.working, ist.previousVersions, ist.lintingErrors, ist.lastFixes,
    some ist.lintingErrors, ist.working⟩

/-- The linting errors accumulated during iteration 1 of the fix loop. -/
def iterationOneErrors {T E F : Type} [DecidableEq F] (M : TreeModel T F)
    (crawlers : List (Crawler T E F)) (fix : Bool) (parsed : T) : List E :=
  (runRules M fix crawlers (initIterState M parsed)).lintingErrors

/-- Outcome of a Python computation that may hit an unbound local
variable (reading `initial_linting_errors` when never assigned). -/
inductive PyResult (α : Type) where
  | ok (val : α)
  | unboundLocalError
deriving DecidableEq

/-- Model of `lint_string` after a successful parse
(linter.py lines 741-823): run the fix loop with enough fuel, then read
the iteration-1 snapshot and append it to the violations accumulated
before the loop.  The outer `Option` is fuel exhaustion, the inner
`PyResult` the unbound-local read of `initial_linting_errors`. -/
def lint_string_post {T E F : Type} [DecidableEq F] (M : TreeModel T F)
    (crawlers : List (Crawler T E F)) (fix : Bool) (loopLimit : Nat)
    (parsed : T) (vs0 : List E) : Option (PyResult (List E × T)) :=
  match lintLoop M crawlers fix loopLimit (loopLimit + 1) 0
      (initLoopState M parsed) with
  | none => none
  | some out =>
    match out.final.snapshot with
    | none => some PyResult.unboundLocalError
    | some initial => some (PyResult.ok (vs0 ++ initial, out.final.parsedOut))

/-! Violations and the ignore mask (linter.py lines 33-98 and 692-711). -/

/-- A violation record with the fields used by `LintedFile`: line number,
line position, rule code, fixability, the ignore flag set by
`ignore_if_in`, and a kind tag standing for the Python class used by the
isinstance-based `types` filter. -/
structure Violation where
  lineNo : Nat
  linePos : Nat
  code : Str
  fixable : Bool
  ignore : Bool
  kind : Nat
deriving DecidableEq, Repr

/-- An ignore-mask entry `(line_no, rules)`: `none` stands for the bare
noqa matching every rule. -/
abbrev IgnoreEntry := Nat × Option (List Str)

/-- Model of `LintedFile.get_violations` (linter.py lines 48-86).
The `types` filter tests membership of the kind tag, standing for the
isinstance test; empty `rules` and `types` are falsy in Python and skip
their filter. -/
def get_violations (violations : List Violation) (ignoreMask : List IgnoreEntry)
    (rules : Option (List Str)) (types : Option (List Nat))
    (filterIgnore : Bool) (fixable : Option Bool) : List Violation :=
  let vs := violations
  let vs := match types with
    | none => vs
    | some ts => if ts = [] then vs else vs.filter (fun v => ts.contains v.kind)
  let vs := match rules with
    | none => vs
    | some rs => if rs = [] then vs else vs.filter (fun v => rs.contains v.code)
  let vs := match fixable with
    | none => vs
    | some fx => vs.filter (fun v => v.fixable == fx)
  if filterIgnore then
    let vs1 := vs.filter (fun v => !v.ignore)
    ignoreMask.foldl
      (fun acc e => acc.filter
        (fun v => !decide (v.lineNo = e.1 ∧
          (e.2 = none ∨ v.code ∈ e.2.getD []))))
      vs1
  else vs

/-- The check-tuple projection `(code, line, pos)` of a violation. -/
def checkTuple (v : Violation) : Str × Nat × Nat := (v.code, v.lineNo, v.linePos)

/-- The fields of a `LintedFile` used by the violation reporting. -/
structure LintedFileModel where
  violations : List Violation
  ignoreMask : List IgnoreEntry

/-- Model of `LintedFile.check_tuples` (linter.py lines 33-46): project
the filtered violations to check tuples, in stored order.  All modelled
violations are linting violations, so the raising branch is not taken. -/
def check_tuples (L : LintedFileModel) : List (Str × Nat × Nat) :=
  (get_violations L.violations L.ignoreMask none none true none).map checkTuple

/-- The ordering the claim asserts for check tuples: by line number, then
line position, then code.  A check tuple is `(code, line, pos)`. -/
def ctOrder (a b : Str × Nat × Nat) : Prop :=
  a.2.1 < b.2.1 ∨ (a.2.1 = b.2.1 ∧
    (a.2.2 < b.2.2 ∨ (a.2.2 = b.2.2 ∧ a.1 ≤ b.1)))

instance : DecidableRel ctOrder := fun a b => by unfold ctOrder; infer_instance

/-- The `(line_no, line_pos, code)` sort key of `as_records`
(linter.py line 509), extracted from `get_info_dict`. -/
def infoTriple (v : Violation) : Nat × Nat × Str := (v.lineNo, v.linePos, v.code)

/-- Lexicographic order on `(line_no, line_pos, code)` sort keys, the key
order used by the Python `sorted` call in `as_records`. -/
def recOrder (a b : Nat × Nat × Str) : Prop :=
  a.1 < b.1 ∨ (a.1 = b.1 ∧ (a.2.1 < b.2.1 ∨ (a.2.1 = b.2.1 ∧ a.2.2 ≤ b.2.2)))

instance : DecidableRel recOrder := fun a b => by unfold recOrder; infer_instance

instance : IsTotal (Nat × Nat × Str) recOrder := by
  constructor
  intro a b
  unfold recOrder
  rcases Nat.lt_trichotomy a.1 b.1 with h | h | h
  · exact Or.inl (Or.inl h)
  · rcases Nat.lt_trichotomy a.2.1 b.2.1 with h2 | h2 | h2
    · exact Or.inl (Or.inr ⟨h, Or.inl h2⟩)
    · rcases le_total a.2.2 b.2.2 with h3 | h3
      · exact Or.inl (Or.inr ⟨h, Or.inr ⟨h2, h3⟩⟩)
      · exact Or.inr (Or.inr ⟨h.symm, Or.inr ⟨h2.symm, h3⟩⟩)
    · exact Or.inr (Or.inr ⟨h.symm, Or.inl h2⟩)
  · exact Or.inr (Or.inl h)

instance : IsTrans (Nat × Nat × Str) recOrder := by
  constructor
  intro a b c hab hbc
  unfold recOrder at *
  rcases hab with h1 | ⟨e1, h1⟩
  · rcases hbc with h2 | ⟨e2, _⟩
    · exact Or.inl (h1.trans h2)
    · exact Or.inl (e2 ▸ h1)
  · rcases hbc with h2 | ⟨e2, h2⟩
    · exact Or.inl (e1 ▸ h2)
    · refine Or.inr ⟨e1.trans e2, ?_⟩
      rcases h1 with h1 | ⟨f1, h1⟩
      · rcases h2 with h2 | ⟨f2, _⟩
        · exact Or.inl (h1.trans h2)
        · exact Or.inl (f2 ▸ h1)
      · rcases h2 with h2 | ⟨f2, h2⟩
        · exact Or.inl (f1 ▸ h2)
        · exact Or.inr ⟨f1.trans f2, h1.trans h2⟩

/-- Model of the per-file sorting done by `LintingResult.as_records`
(linter.py lines 502-515): the info records of the filtered violations of
one file, sorted by `(line_no, line_pos, code)`. -/
def as_records_violations (L : LintedFileModel) : List (Nat × Nat × Str) :=
  List.insertionSort recOrder
    ((get_violations L.violations L.ignoreMask none none true none).map infoTriple)

/-! The noqa parser `Linter.extract_ignore_from_comment`
(linter.py lines 692-711). -/

/-- Python str.strip: drop whitespace from both ends. -/
def pyStrip (s : Str) : Str :=
  ((s.dropWhile Char.isWhitespace).reverse.dropWhile Char.isWhitespace).reverse

/-- Python str.startswith on character lists (pattern first). -/
def startsWithL : Str → Str → Bool
  | [], _ => true
  | _ :: _, [] => false
  | p :: ps, s :: ss => p == s && startsWithL ps ss

/-- Python str.split on a comma: splitting the empty string yields one
empty piece, like in Python. -/
def splitOnComma (s : Str) : List Str :=
  match s with
  | [] => [[]]
  | c :: rest =>
    match splitOnComma rest with
    | [] => [[]]
    | r :: rs => if c = ',' then [] :: r :: rs else (c :: r) :: rs

/-- The characters of the keyword noqa. -/
def noqaStr : Str := ['n', 'o', 'q', 'a']

/-- Result of `extract_ignore_from_comment`: an ignore entry, a parse
error for a malformed noqa, or nothing for an unrelated comment. -/
inductive IgnoreResult where
  | entry (lineNo : Nat) (rules : Option (List Str))
  | parseError
  | noEntry
deriving DecidableEq, Repr

/-- Model of `Linter.extract_ignore_from_comment`
(linter.py lines 692-711).  The input is the comment content as returned
by `raw_trimmed()` (the comment markers already removed, a tree-side
operation external to this file) together with the line number of the
comment position marker. -/
def extract_ignore_from_comment (raw : Str) (lineNo : Nat) : IgnoreResult :=
  let content := pyStrip raw
  if startsWithL noqaStr content then
    let rem := content.drop 4
    if rem ≠ [] then
      if !startsWithL [':'] rem then IgnoreResult.parseError
      else
        IgnoreResult.entry lineNo (some ((splitOnComma (rem.drop 1)).map pyStrip))
    else IgnoreResult.entry lineNo none
  else IgnoreResult.noEntry

/-! Concrete instances used by witnesses and counterexamples. -/

/-- A concrete tree model over raw strings: applying fixes appends a
marker character. -/
def exTreeModel : TreeModel Str Nat :=
  ⟨id, fun t _ => (t ++ ['x'], [])⟩

/-- A concrete crawler producing one error and one fix on every run. -/
def exCrawler : Crawler Str Nat Nat :=
  ⟨['L', '1'], fun _ _ => ([1], [2])⟩

/-- A tree model whose fix application always lands on the raw text b,
used to exercise the already-seen-version branch. -/
def exTreeModelSeen : TreeModel Str Nat :=
  ⟨id, fun _ _ => (['b'], [])⟩

/-- A crawler proposing the fix 7, used with `exTreeModelSeen`. -/
def exCrawlerSeen : Crawler Str Nat Nat :=
  ⟨['L', '2'], fun _ _ => ([], [7])⟩

/-- An iteration state whose previous versions already contain b. -/
def exIterStateSeen : IterState Str Nat Nat :=
  ⟨['a'], [['a'], ['b']], [], none, false⟩

/-- Source string for the slice-buffer counterexample. -/
def c4source : Str := ['a', 'b', 'c', 'd', 'e', 'f', 'g', 'h', 'i', 'j', 'k', 'l']

/-- Patches for the slice-buffer counterexample: the first one starts
before and reaches into the untouchable range. -/
def c4patches : List Patch := [((3, 8), ['x']), ((11, 12), ['y'])]

/-- The untouchable range overlapped by the first counterexample patch. -/
def c4untouchables : List SRange := [(5, 10)]

/-- Source string for the untouchable-replacement counterexample. -/
def c3source : Str := ['a', 'b', 'c', 'd', 'e']

/-- A single patch covering the whole source, untouchable included. -/
def c3patches : List Patch := [((0, 5), ['X'])]

/-- The untouchable range replaced by the counterexample patch. -/
def c3untouchables : List SRange := [(1, 4)]

/-- A patch whose replacement text equals the text it replaces. -/
def c5patches : List Patch := [((0, 1), ['a'])]

/-- Source for the identity-with-patches counterexample. -/
def c5source : Str := ['a', 'b', 'c']

/-- Two violations listed with the larger line number first. -/
def c9file : LintedFileModel :=
  ⟨[⟨2, 1, ['L', '1'], true, false, 0⟩, ⟨1, 1, ['L', '1'], true, false, 0⟩], []⟩

/-- The concrete starting loop state used by the loop witnesses. -/
def exInitState : LoopState Str Nat Nat := initLoopState exTreeModel ['s']

/-- Source string for the preservation witness. -/
def w3source : Str := ['a', 'b', 'c', 'd', 'e', 'f']

/-- A single patch not touching the untouchable range, for witnesses. -/
def w3patches : List Patch := [((0, 1), ['X'])]

/-- An untouchable range disjoint from the witness patch. -/
def w3untouchables : List SRange := [(2, 4)]

/-!  Helper lemmas about the fix loop. -/

section LoopLemmas

variable {T E F : Type} [DecidableEq F] (M : TreeModel T F)
variable (crawlers : List (Crawler T E F)) (fix : Bool) (loopLimit : Nat)

/-- With fuel at least the distance to the runaway limit, the fix loop
returns a result, its exit index stays at most limit plus one, and the
runaway warning fires exactly on reaching the limit entry. -/
theorem lintLoop_some : ∀ (fuel idx : Nat) (st : LoopState T E F),
    idx ≤ loopLimit → loopLimit + 1 ≤ idx + fuel →
    ∃ out, lintLoop M crawlers fix loopLimit fuel idx st = some out ∧
      out.finalIdx ≤ loopLimit + 1 ∧ idx + 1 ≤ out.finalIdx ∧
      (out.warned = true ↔ out.finalIdx = loopLimit + 1) := by
  intro fuel
  induction fuel with
  | zero => intro idx st h1 h2; omega
  | succ fuel ih =>
    intro idx st h1 h2
    simp only [lintLoop]
    by_cases hgt : idx + 1 > loopLimit
    · simp only [if_pos hgt]
      refine ⟨_, rfl, ?_, ?_, ?_⟩ <;> simp <;> omega
    · simp only [if_neg hgt]
      by_cases h1f : idx + 1 = 1 ∧ fix = false
      · simp only [if_pos h1f]
        refine ⟨_, rfl, ?_, ?_, ?_⟩ <;> simp <;> omega
      · simp only [if_neg h1f]
        by_cases hch :
            (runRules M fix crawlers ⟨st.working, st.previousVersions,
              st.lintingErrors, st.lastFixes, false⟩).changed = false
        · simp only [if_pos hch]
          refine ⟨_, rfl, ?_, ?_, ?_⟩ <;> simp <;> omega
        · simp only [if_neg hch]
          obtain ⟨out, hout, hb, hlo, hw⟩ := ih (idx + 1) _ (by omega) (by omega)
          exact ⟨out, hout, hb, by omega, hw⟩

/-- After iteration 1 the snapshot `initial_linting_errors` is never
reassigned: the loop started at any index of at least 1 preserves it. -/
theorem lintLoop_snapshot_preserved : ∀ (fuel idx : Nat)
    (st : LoopState T E F) (out : LoopOut T E F), 1 ≤ idx →
    lintLoop M crawlers fix loopLimit fuel idx st = some out →
    out.final.snapshot = st.snapshot := by
  intro fuel
  induction fuel with
  | zero => intro idx st out _ h; simp [lintLoop] at h
  | succ fuel ih =>
    intro idx st out hidx h
    simp only [lintLoop] at h
    by_cases hgt : idx + 1 > loopLimit
    · simp only [if_pos hgt, Option.some.injEq] at h
      rw [← h]
    · simp only [if_neg hgt] at h
      have hne : ¬ idx + 1 = 1 := by omega
      simp only [hne, false_and, if_false, if_neg] at h
      by_cases hch :
          (runRules M fix crawlers ⟨st.working, st.previousVersions,
            st.lintingErrors, st.lastFixes, false⟩).changed = false
      · simp only [if_pos hch, Option.some.injEq] at h
        rw [← h]
      · simp only [if_neg hch] at h
        have hx := ih (idx + 1) _ out (by omega) h
        exact hx

/-- When the runaway limit admits iteration 1 and either fix mode is off
or iteration 1 commits no change, the fix loop exits at index 1 with the
snapshot set to the iteration-1 errors. -/
theorem lintLoop_exit_at_one (fuel : Nat) (st : LoopState T E F)
    (hlim : 1 ≤ loopLimit)
    (hcase : fix = false ∨
      (runRules M fix crawlers ⟨st.working, st.previousVersions,
        st.lintingErrors, st.lastFixes, false⟩).changed = false) :
    ∃ fin : LoopState T E F,
      lintLoop M crawlers fix loopLimit (fuel + 1) 0 st = some ⟨fin, false, 1⟩ ∧
      fin.snapshot = some (runRules M fix crawlers ⟨st.working,
        st.previousVersions, st.lintingErrors, st.lastFixes, false⟩).lintingErrors := by
  have hgt : ¬ 0 + 1 > loopLimit := by omega
  simp only [lintLoop, Nat.zero_add, if_neg (by omega : ¬ 1 > loopLimit)]
  rcases hcase with hf | hch
  · subst hf
    simp

  · by_cases hf : fix = false
    · subst hf; simp
    · have hfix : fix = true := by revert hf; cases fix <;> simp
      subst hfix
      simp [hch]

/-- In fix mode, when iteration 1 commits a change, the first loop entry
reduces to the recursive call at index 1 on the post-iteration state. -/
theorem lintLoop_enter_loop (fuel : Nat) (st : LoopState T E F)
    (hlim : 1 ≤ loopLimit)
    (hch : (runRules M true crawlers ⟨st.working, st.previousVersions,
      st.lintingErrors, st.lastFixes, false⟩).changed = true) :
    lintLoop M crawlers true loopLimit (fuel + 1) 0 st =
      lintLoop M crawlers true loopLimit fuel 1
        (afterFirstIteration M crawlers st) := by
  have h1 : ¬ 1 > loopLimit := by omega
  simp [lintLoop, h1, hch, afterFirstIteration]

/-- With a runaway limit of at least 1 the post-parse part of
`lint_string` succeeds and reports exactly the pre-loop violations
followed by the iteration-1 linting errors. -/
theorem lint_string_post_ok (parsed : T) (vs0 : List E) (h : 1 ≤ loopLimit) :
    ∃ t, lint_string_post M crawlers fix loopLimit parsed vs0 =
      some (PyResult.ok (vs0 ++ iterationOneErrors M crawlers fix parsed, t)) := by
  unfold lint_string_post
  by_cases hcase : fix = false ∨
      (runRules M fix crawlers ⟨parsed, [M.raw parsed], [], none, false⟩).changed = false
  · obtain ⟨fin, hfin, hsnap⟩ :=
      lintLoop_exit_at_one M crawlers fix loopLimit loopLimit
        (initLoopState M parsed) h (by simpa [initLoopState] using hcase)
    rw [hfin]
    simp only [initLoopState] at hsnap
    refine ⟨fin.parsedOut, ?_⟩
    show (match fin.snapshot with
      | none => some PyResult.unboundLocalError
      | some initial => some (PyResult.ok (vs0 ++ initial, fin.parsedOut))) =
      some (PyResult.ok (vs0 ++ iterationOneErrors M crawlers fix parsed,
        fin.parsedOut))
    rw [hsnap]
    rfl
  · push_neg at hcase
    obtain ⟨hfix, hch⟩ := hcase
    have hfix' : fix = true := by revert hfix; cases fix <;> simp
    subst hfix'
    have hch' : (runRules M true crawlers ⟨parsed, [M.raw parsed], [], none,
        false⟩).changed = true := by
      revert hch
      cases (runRules M true crawlers ⟨parsed, [M.raw parsed], [], none,
        false⟩).changed <;> simp
    have henter := lintLoop_enter_loop M crawlers loopLimit loopLimit
      (initLoopState M parsed) h (by simpa [initLoopState] using hch')
    rw [henter]
    obtain ⟨out, hout, _, _, _⟩ :=
      lintLoop_some M crawlers true loopLimit loopLimit 1
        (afterFirstIteration M crawlers (initLoopState M parsed)) h (by omega)
    rw [hout]
    have hsnap := lintLoop_snapshot_preserved M crawlers true loopLimit
      loopLimit 1 _ out (by omega) hout
    have hsnap' : out.final.snapshot =
        some (iterationOneErrors M crawlers true parsed) := by
      rw [hsnap]; rfl
    refine ⟨out.final.parsedOut, ?_⟩
    show (match out.final.snapshot with
      | none => some PyResult.unboundLocalError
      | some initial => some (PyResult.ok (vs0 ++ initial, out.final.parsedOut))) =
      some (PyResult.ok (vs0 ++ iterationOneErrors M crawlers true parsed,
        out.final.parsedOut))
    rw [hsnap']

/-- With a runaway limit of 0 the fix loop exits before iteration 1, the
snapshot is never assigned, and reading it is an unbound-local error. -/
theorem lint_string_post_unbound (parsed : T) (vs0 : List E) :
    lint_string_post M crawlers fix 0 parsed vs0 =
      some PyResult.unboundLocalError := by
  simp [lint_string_post, lintLoop, initLoopState]

end LoopLemmas

/-- C1: the violations reported by lint_string are exactly those
accumulated during iteration 1 of the fix loop: the snapshot
`initial_linting_errors` taken at the end of iteration 1 is the only
linting-error list appended to the returned violations, and violations
produced by rule runs in later iterations are discarded. -/
theorem lint_string_reports_iteration_one_errors {T E F : Type}
    [DecidableEq F] (M : TreeModel T F) (crawlers : List (Crawler T E F))
    (fix : Bool) (loopLimit : Nat) (parsed : T) (vs0 : List E)
    (h : 1 ≤ loopLimit) :
    ∃ t, lint_string_post M crawlers fix loopLimit parsed vs0 =
      some (PyResult.ok (vs0 ++ iterationOneErrors M crawlers fix parsed, t)) :=
  lint_string_post_ok M crawlers fix loopLimit parsed vs0 h

/-- Witness for C1 on a concrete rule set in fix mode with limit 2. -/
theorem lint_string_reports_iteration_one_errors_witness :
    ∃ t, lint_string_post exTreeModel [exCrawler] true 2 ['s'] [9] =
      some (PyResult.ok
        ([9] ++ iterationOneErrors exTreeModel [exCrawler] true ['s'], t)) :=
  lint_string_reports_iteration_one_errors exTreeModel [exCrawler] true 2
    ['s'] [9] (by decide)

/-- C2: with fuel beyond the runaway limit L the fix loop always returns:
it exits at an index of at most L plus one, warns about the loop limit
exactly when it enters iteration L plus one, exits after iteration 1 when
fix mode is off, and exits after iteration 1 when that iteration commits
no tree change. -/
theorem lint_loop_terminates_within_limit {T E F : Type} [DecidableEq F]
    (M : TreeModel T F) (crawlers : List (Crawler T E F)) (fix : Bool)
    (loopLimit : Nat) (st : LoopState T E F) (fuel : Nat)
    (hf : loopLimit + 1 ≤ fuel) :
    ∃ out, lintLoop M crawlers fix loopLimit fuel 0 st = some out ∧
      out.finalIdx ≤ loopLimit + 1 ∧
      (out.warned = true ↔ out.finalIdx = loopLimit + 1) ∧
      (fix = false → 1 ≤ loopLimit → out.finalIdx = 1) ∧
      (1 ≤ loopLimit →
        (runRules M fix crawlers ⟨st.working, st.previousVersions,
          st.lintingErrors, st.lastFixes, false⟩).changed = false →
        out.finalIdx = 1) := by
  obtain ⟨out, hout, hb, _, hw⟩ :=
    lintLoop_some M crawlers fix loopLimit fuel 0 st (by omega) (by omega)
  refine ⟨out, hout, hb, hw, ?_, ?_⟩
  · intro hfix hlim
    obtain ⟨fuel', rfl⟩ : ∃ f, fuel = f + 1 := ⟨fuel - 1, by omega⟩
    obtain ⟨fin, hfin, _⟩ :=
      lintLoop_exit_at_one M crawlers fix loopLimit fuel' st hlim (Or.inl hfix)
    rw [hout] at hfin
    injection hfin with hfin
    rw [hfin]
  · intro hlim hch
    obtain ⟨fuel', rfl⟩ : ∃ f, fuel = f + 1 := ⟨fuel - 1, by omega⟩
    obtain ⟨fin, hfin, _⟩ :=
      lintLoop_exit_at_one M crawlers fix loopLimit fuel' st hlim (Or.inr hch)
    rw [hout] at hfin
    injection hfin with hfin
    rw [hfin]

/-- Witness for C2 on a concrete rule set with limit 1 and fuel 2. -/
theorem lint_loop_terminates_within_limit_witness :
    ∃ out, lintLoop exTreeModel [exCrawler] true 1 2 0 exInitState = some out ∧
      out.finalIdx ≤ 1 + 1 ∧
      (out.warned = true ↔ out.finalIdx = 1 + 1) ∧
      (true = false → 1 ≤ 1 → out.finalIdx = 1) ∧
      (1 ≤ 1 →
        (runRules exTreeModel true [exCrawler]
          ⟨exInitState.working, exInitState.previousVersions,
           exInitState.lintingErrors, exInitState.lastFixes,
           false⟩).changed = false →
        out.finalIdx = 1) :=
  lint_loop_terminates_within_limit exTreeModel [exCrawler] true 1
    exInitState 2 (by decide)

/-- C10: after a successful parse, the read of the iteration-1 snapshot
is always defined when the runaway limit is at least 1, while with limit
0 the loop breaks before completing any iteration and the read of the
never-assigned `initial_linting_errors` is an unbound-local error. -/
theorem lint_string_snapshot_read_defined {T E F : Type} [DecidableEq F]
    (M : TreeModel T F) (crawlers : List (Crawler T E F)) (fix : Bool)
    (loopLimit : Nat) (parsed : T) (vs0 : List E) :
    (1 ≤ loopLimit → ∃ r t,
      lint_string_post M crawlers fix loopLimit parsed vs0 =
        some (PyResult.ok (r, t))) ∧
    (loopLimit = 0 →
      lint_string_post M crawlers fix loopLimit parsed vs0 =
        some PyResult.unboundLocalError) := by
  constructor
  · intro h
    obtain ⟨t, ht⟩ := lint_string_post_ok M crawlers fix loopLimit parsed vs0 h
    exact ⟨_, t, ht⟩
  · intro h
    subst h
    exact lint_string_post_unbound M crawlers fix parsed vs0

/-- Witness for C10 at limits 1 and 0 on a concrete rule set. -/
theorem lint_string_snapshot_read_defined_witness :
    (∃ r t, lint_string_post exTreeModel [exCrawler] true 1 ['s'] [9] =
      some (PyResult.ok (r, t))) ∧
    lint_string_post exTreeModel [exCrawler] true 0 ['s'] [9] =
      some PyResult.unboundLocalError :=
  ⟨(lint_string_snapshot_read_defined exTreeModel [exCrawler] true 1
      ['s'] [9]).1 (by decide),
   (lint_string_snapshot_read_defined exTreeModel [exCrawler] true 0
      ['s'] [9]).2 rfl⟩

/-- C6 counterexample: a concrete crawler step in fix mode whose fix
application lands on an already-seen raw text.  The tree is not
committed, `changed` stays false, the working tree and the version set
are untouched, and yet `last_fixes` is assigned the uncommitted edit
set, refuting the claim that `last_fixes` is assigned only in the
committing branch. -/
theorem last_fixes_assigned_without_commit :
    (crawlerStep exTreeModelSeen true exCrawlerSeen exIterStateSeen).lastFixes
        = some [7] ∧
    exIterStateSeen.lastFixes = none ∧
    (crawlerStep exTreeModelSeen true exCrawlerSeen exIterStateSeen).working
        = exIterStateSeen.working ∧
    (crawlerStep exTreeModelSeen true exCrawlerSeen exIterStateSeen).changed
        = false ∧
    (crawlerStep exTreeModelSeen true exCrawlerSeen
        exIterStateSeen).previousVersions
        = exIterStateSeen.previousVersions := by
  refine ⟨?_, ?_, ?_, ?_, ?_⟩ <;> rfl

/-- C6 amended: `last_fixes` tracks the most recent attempted edit set:
it is assigned exactly when fix mode is on, the rule returned a nonempty
edit set, and that edit set differs from the current `last_fixes`;
the assignment happens whether or not the resulting tree is committed,
and an edit set equal to the current `last_fixes` never reaches
application nor assignment. -/
theorem last_fixes_tracks_attempted_fixes {T E F : Type} [DecidableEq F]
    (M : TreeModel T F) (fix : Bool) (c : Crawler T E F)
    (st : IterState T E F) :
    (crawlerStep M fix c st).lastFixes =
      if fix = true ∧ (c.crawl st.working fix).2 ≠ [] ∧
          st.lastFixes ≠ some (c.crawl st.working fix).2 then
        some (c.crawl st.working fix).2
      else st.lastFixes := by
  unfold crawlerStep
  by_cases h1 : (fix : Prop) ∧ (c.crawl st.working fix).2 ≠ []
  · simp only [if_pos h1]
    by_cases h2 : st.lastFixes = some (c.crawl st.working fix).2
    · have : ¬ (fix = true ∧ (c.crawl st.working fix).2 ≠ [] ∧
          st.lastFixes ≠ some (c.crawl st.working fix).2) := by
        intro hc; exact hc.2.2 h2
      simp only [if_pos h2, if_neg this]
    · have hpos : fix = true ∧ (c.crawl st.working fix).2 ≠ [] ∧
          st.lastFixes ≠ some (c.crawl st.working fix).2 := ⟨h1.1, h1.2, h2⟩
      simp only [if_neg h2, if_pos hpos]
      by_cases h3 : M.raw (M.applyFixes st.working (c.crawl st.working fix).2).1
          ∈ st.previousVersions
      · simp only [if_pos h3]
      · simp only [if_neg h3]
  · have : ¬ (fix = true ∧ (c.crawl st.working fix).2 ≠ [] ∧
        st.lastFixes ≠ some (c.crawl st.working fix).2) := by
      intro hc; exact h1 ⟨hc.1, hc.2.1⟩
    simp only [if_neg h1, if_neg this]

/-- Folding a list of filters equals keeping the elements passing all of
them. -/
theorem mem_foldl_filter {α β : Type} (l : List β) (p : β → α → Bool)
    (acc : List α) (v : α) :
    v ∈ l.foldl (fun a e => a.filter (p e)) acc ↔
      v ∈ acc ∧ ∀ e ∈ l, p e v = true := by
  induction l generalizing acc with
  | nil => simp
  | cons e rest ih =>
    simp only [List.foldl_cons, ih, List.mem_filter, List.mem_cons]
    constructor
    · rintro ⟨⟨hv, hp⟩, hall⟩
      exact ⟨hv, fun f hf => by
        rcases hf with rfl | hf
        · exact hp
        · exact hall f hf⟩
    · rintro ⟨hv, hall⟩
      exact ⟨⟨hv, hall e (Or.inl rfl)⟩, fun f hf => hall f (Or.inr hf)⟩

/-- C7: with ignore filtering on and the other filters at their defaults,
a violation survives `get_violations` exactly when its ignore flag is
unset and no ignore-mask entry matches it, an entry matching when the
line numbers agree and its rule set is the bare-noqa ALL or contains the
violation rule code.  In particular a noqa comment naming rule R on line
n suppresses exactly the violations of rule R on line n, and a bare noqa
suppresses every violation on its line. -/
theorem get_violations_ignore_semantics (vs : List Violation)
    (mask : List IgnoreEntry) (v : Violation) :
    v ∈ get_violations vs mask none none true none ↔
      v ∈ vs ∧ v.ignore = false ∧
        ∀ e ∈ mask,
          ¬ (v.lineNo = e.1 ∧ (e.2 = none ∨ v.code ∈ e.2.getD [])) := by
  simp only [get_violations, if_pos trivial, mem_foldl_filter, List.mem_filter,
    Bool.not_eq_true', decide_eq_false_iff_not, and_assoc]

/-- C8: the noqa parser returns the ALL entry when the stripped comment
is exactly noqa, an entry with the stripped comma-separated codes when a
colon follows, a parse error when anything else follows noqa, and no
entry when the comment does not start with noqa. -/
theorem extract_ignore_from_comment_cases (raw : Str) (line : Nat) :
    (pyStrip raw = noqaStr →
      extract_ignore_from_comment raw line = IgnoreResult.entry line none) ∧
    (∀ rest, pyStrip raw = noqaStr ++ ':' :: rest →
      extract_ignore_from_comment raw line =
        IgnoreResult.entry line (some ((splitOnComma rest).map pyStrip))) ∧
    (∀ c rest, pyStrip raw = noqaStr ++ c :: rest → c ≠ ':' →
      extract_ignore_from_comment raw line = IgnoreResult.parseError) ∧
    (startsWithL noqaStr (pyStrip raw) = false →
      extract_ignore_from_comment raw line = IgnoreResult.noEntry) := by
  refine ⟨?_, ?_, ?_, ?_⟩
  · intro h
    simp [extract_ignore_from_comment, h, noqaStr, startsWithL]
  · intro rest h
    simp [extract_ignore_from_comment, h, noqaStr, startsWithL]
  · intro c rest h hc
    have hcb : (':' == c) = false := by
      simp only [beq_eq_false_iff_ne, ne_eq]
      exact fun hx => hc hx.symm
    simp [extract_ignore_from_comment, h, noqaStr, startsWithL, hcb]
  · intro h
    simp [extract_ignore_from_comment, h]

/-- Witness for C8 on the comment noqa colon L1. -/
theorem extract_ignore_from_comment_cases_witness :
    extract_ignore_from_comment ['n', 'o', 'q', 'a', ':', 'L', '1'] 7 =
      IgnoreResult.entry 7 (some ((splitOnComma ['L', '1']).map pyStrip)) :=
  (extract_ignore_from_comment_cases ['n', 'o', 'q', 'a', ':', 'L', '1'] 7).2.1
    ['L', '1'] (by decide)

/-- C9 counterexample: `check_tuples` keeps the stored violation order,
so a file holding its violations out of order yields check tuples that
are not sorted by line number, line position and code. -/
theorem check_tuples_unsorted_example :
    ¬ (check_tuples c9file).Pairwise ctOrder := by decide

/-- C9 amended: the per-file sorting guarantee belongs to the records of
`as_records`: the info triples of the filtered violations of one file
are returned sorted by line number, then line position, then code, and
they are a permutation of the unsorted info triples; `check_tuples`
itself preserves the stored order. -/
theorem as_records_violations_sorted (L : LintedFileModel) :
    List.Sorted recOrder (as_records_violations L) ∧
    (as_records_violations L).Perm
      ((get_violations L.violations L.ignoreMask none none true none).map
        infoTriple) :=
  ⟨List.sorted_insertionSort recOrder _, List.perm_insertionSort recOrder _⟩

/-- C5 counterexample: a nonempty deduplicated patch set whose only patch
replaces text by identical text reproduces the source exactly, refuting
the claimed equivalence between identity output and an empty
deduplicated patch list. -/
theorem fix_string_identity_despite_patches :
    ¬ ((fix_string c5source c5patches []).1 = c5source ↔
        dedupe c5patches = []) := by decide

/-- C5 amended: if no source-space patches remain after deduplication the
output of `fix_string` equals the source, and the returned flag is true
exactly when the output differs from the source; a nonempty patch list
may nevertheless reproduce the source, so the converse direction of the
claimed equivalence does not hold. -/
theorem fix_string_identity_and_change_flag (source : Str)
    (patches : List Patch) (us : List SRange) :
    (dedupe patches = [] → (fix_string source patches us).1 = source) ∧
    (fix_string source patches us).2 =
      ((fix_string source patches us).1 != source) := by
  constructor
  · intro h
    show renderAll (dedupe patches) source
      (buildSliceBuff (dedupe patches) us source.length) = source
    rw [h]
    by_cases hl : 0 < source.length
    · simp only [buildSliceBuff, List.foldl_nil, if_pos hl]
      simp [renderAll, renderSlice, subStr, List.take_length]
    · have h0 : source.length = 0 := by omega
      have hsrc : source = [] := List.length_eq_zero.mp h0
      subst hsrc
      simp [buildSliceBuff, renderAll]
  · rfl

/-- Witness for C5 with an empty patch list. -/
theorem fix_string_identity_and_change_flag_witness :
    (fix_string c5source [] []).1 = c5source :=
  (fix_string_identity_and_change_flag c5source [] []).1 rfl

/-!  Lemmas about the tiling predicate. -/

/-- A tiling of an interval forces its bounds to be ordered. -/
theorem tiles_le : ∀ {l : List SRange} {a b : Nat}, tiles a b l → a ≤ b := by
  intro l
  induction l with
  | nil => intro a b h; exact Nat.le_of_eq h
  | cons r rest ih =>
    intro a b h
    obtain ⟨h1, h2, h3⟩ := h
    calc a = r.1 := h1.symm
    _ ≤ r.2 := h2
    _ ≤ b := ih h3

/-- Tilings compose by concatenation. -/
theorem tiles_append : ∀ {l1 l2 : List SRange} {a m b : Nat},
    tiles a m l1 → tiles m b l2 → tiles a b (l1 ++ l2) := by
  intro l1
  induction l1 with
  | nil =>
    intro l2 a m b h1 h2
    have : a = m := h1
    simpa [this] using h2
  | cons r rest ih =>
    intro l2 a m b h1 h2
    obtain ⟨ha, hle, ht⟩ := h1
    exact ⟨ha, hle, ih ht h2⟩

/-- Every slice of a tiling lies inside the tiled interval. -/
theorem tiles_bounds : ∀ {l : List SRange} {a b : Nat}, tiles a b l →
    ∀ r ∈ l, a ≤ r.1 ∧ r.1 ≤ r.2 ∧ r.2 ≤ b := by
  intro l
  induction l with
  | nil => intro a b _ r hr; cases hr
  | cons s rest ih =>
    intro a b h r hr
    obtain ⟨ha, hle, ht⟩ := h
    rcases List.mem_cons.mp hr with hr | hr
    · subst hr
      exact ⟨Nat.le_of_eq ha.symm, hle, tiles_le ht⟩
    · obtain ⟨h1, h2, h3⟩ := ih ht r hr
      exact ⟨le_trans (le_trans (Nat.le_of_eq ha.symm) hle) h1, h2, h3⟩

/-- The slices of a tiling are pairwise disjoint and in order. -/
theorem tiles_pairwise : ∀ {l : List SRange} {a b : Nat}, tiles a b l →
    l.Pairwise (fun r s => r.2 ≤ s.1) := by
  intro l
  induction l with
  | nil => intro a b _; exact List.Pairwise.nil
  | cons s rest ih =>
    intro a b h
    obtain ⟨_, _, ht⟩ := h
    exact List.Pairwise.cons (fun r hr => (tiles_bounds ht r hr).1) (ih ht)

/-- Every offset of a tiled interval is covered by some slice. -/
theorem tiles_cover : ∀ {l : List SRange} {a b : Nat}, tiles a b l →
    ∀ k, a ≤ k → k < b → ∃ r ∈ l, r.1 ≤ k ∧ k < r.2 := by
  intro l
  induction l with
  | nil => intro a b h k h1 h2; subst h; omega
  | cons s rest ih =>
    intro a b h k h1 h2
    obtain ⟨ha, hle, ht⟩ := h
    by_cases hk : k < s.2
    · exact ⟨s, List.mem_cons_self s rest, by omega, hk⟩
    · obtain ⟨r, hr, hcov⟩ := ih ht k (by omega) h2
      exact ⟨r, List.mem_cons_of_mem s hr, hcov⟩

/-- Two slices of a tiling covering the same offset are equal. -/
theorem tiles_cover_unique : ∀ {l : List SRange} {a b : Nat}, tiles a b l →
    ∀ r1 ∈ l, ∀ r2 ∈ l, ∀ k, r1.1 ≤ k → k < r1.2 → r2.1 ≤ k → k < r2.2 →
      r1 = r2 := by
  intro l
  induction l with
  | nil => intro a b _ r1 hr1; cases hr1
  | cons s rest ih =>
    intro a b h r1 hr1 r2 hr2 k h11 h12 h21 h22
    obtain ⟨_, _, ht⟩ := h
    rcases List.mem_cons.mp hr1 with he1 | hm1 <;>
      rcases List.mem_cons.mp hr2 with he2 | hm2
    · rw [he1, he2]
    · subst he1
      have := (tiles_bounds ht r2 hm2).1
      omega
    · subst he2
      have := (tiles_bounds ht r1 hm1).1
      omega
    · exact ih ht r1 hm1 r2 hm2 k h11 h12 h21 h22

/-!  Lemmas about rendering. -/

/-- Splitting a slice of the source at an interior offset. -/
theorem subStr_split (s : Str) (x y z : Nat) (h1 : x ≤ y) (h2 : y ≤ z) :
    subStr s (x, z) = subStr s (x, y) ++ subStr s (y, z) := by
  simp only [subStr]
  have hz : z - x = (y - x) + (z - y) := by omega
  rw [hz, List.take_add]
  congr 1
  rw [List.drop_drop]
  congr 2
  omega

/-- The rendering fold factors through an arbitrary accumulator. -/
theorem renderAll_acc (ps : List Patch) (s : Str) :
    ∀ (B : List SRange) (acc : Str),
      B.foldl (fun a r => a ++ renderSlice ps s r) acc =
        acc ++ renderAll ps s B := by
  intro B
  induction B with
  | nil => intro acc; simp [renderAll]
  | cons r rest ih =>
    intro acc
    simp only [renderAll, List.foldl_cons, List.nil_append]
    rw [ih (acc ++ renderSlice ps s r), ih (renderSlice ps s r)]
    simp [List.append_assoc]

/-- Rendering distributes over concatenation of slice buffers. -/
theorem renderAll_append (ps : List Patch) (s : Str) (B1 B2 : List SRange) :
    renderAll ps s (B1 ++ B2) = renderAll ps s B1 ++ renderAll ps s B2 := by
  simp only [renderAll, List.foldl_append]
  rw [renderAll_acc]
  rfl

/-- Rendering a single-slice buffer. -/
theorem renderAll_cons (ps : List Patch) (s : Str) (r : SRange)
    (B : List SRange) :
    renderAll ps s (r :: B) = renderSlice ps s r ++ renderAll ps s B := by
  simp only [renderAll, List.foldl_cons]
  rw [renderAll_acc]
  rfl

/-- A slice matched by no patch range renders as a raw copy. -/
theorem renderSlice_raw (ps : List Patch) (s : Str) (r : SRange)
    (h : ∀ p ∈ ps, p.1 ≠ r) :
    renderSlice ps s r = subStr s r := by
  unfold renderSlice
  have : ps.find? (fun p => p.1 == r) = none := by
    rw [List.find?_eq_none]
    intro p hp
    simp only [beq_iff_eq]
    exact h p hp
  rw [this]

/-!  The invariant of the slice-buffer construction. -/

/-- Unfolding of the untouchable-popping loop when the head pops. -/
theorem popUntouchables_cons_lt (u : SRange) (rest : List SRange)
    (pStart idx : Nat) (h : u.1 < pStart) :
    popUntouchables (u :: rest) pStart idx =
      ((popUntouchables rest pStart u.2).1,
       (popUntouchables rest pStart u.2).2.1,
       (if idx < u.1 then [(idx, u.1)] else []) ++
         u :: (popUntouchables rest pStart u.2).2.2) := by
  simp only [popUntouchables, if_pos h]

/-- Unfolding of the untouchable-popping loop when the head stays. -/
theorem popUntouchables_cons_ge (u : SRange) (rest : List SRange)
    (pStart idx : Nat) (h : ¬ u.1 < pStart) :
    popUntouchables (u :: rest) pStart idx = (u :: rest, idx, []) := by
  simp only [popUntouchables, if_neg h]

/-- Specification of the untouchable-popping loop: the appended slices
tile the advance of the source index, the index lands at most at the
patch start, the remaining untouchables start at or after the patch
start, and every untouchable is either appended or remaining. -/
theorem popUntouchables_spec :
    ∀ (us : List SRange) (pStart idx len : Nat),
      us.Pairwise (fun u v => u.2 ≤ v.1) →
      (∀ u ∈ us, idx ≤ u.1 ∧ u.1 < u.2 ∧ u.2 ≤ len) →
      idx ≤ pStart →
      (∀ u ∈ us, u.1 < pStart → u.2 ≤ pStart) →
      ∀ us' idx' app, popUntouchables us pStart idx = (us', idx', app) →
        tiles idx idx' app ∧ idx ≤ idx' ∧ idx' ≤ pStart ∧
        us'.Pairwise (fun u v => u.2 ≤ v.1) ∧
        (∀ u ∈ us', pStart ≤ u.1 ∧ u.1 < u.2 ∧ u.2 ≤ len ∧ u ∈ us) ∧
        (∀ u ∈ us, u ∈ app ∨ u ∈ us') := by
  intro us
  induction us with
  | nil =>
    intro pStart idx len _ _ hip _ us' idx' app heq
    obtain ⟨h1, h2, h3⟩ :
        ([] : List SRange) = us' ∧ idx = idx' ∧ ([] : List SRange) = app := by
      simpa [popUntouchables, Prod.ext_iff] using heq
    subst h1; subst h2; subst h3
    refine ⟨rfl, le_refl idx, hip, List.Pairwise.nil, ?_, ?_⟩
    · intro u hu; cases hu
    · intro u hu; cases hu
  | cons u rest ih =>
    intro pStart idx len hpw hb hip hcl us' idx' app heq
    have hu := hb u (List.mem_cons_self u rest)
    have hpwc := List.pairwise_cons.mp hpw
    by_cases hlt : u.1 < pStart
    · rw [popUntouchables_cons_lt u rest pStart idx hlt] at heq
      rcases hr : popUntouchables rest pStart u.2 with ⟨rus, ridx, rapp⟩
      rw [hr] at heq
      obtain ⟨h1, h2, h3⟩ : rus = us' ∧ ridx = idx' ∧
          ((if idx < u.1 then [(idx, u.1)] else []) ++ u :: rapp) = app := by
        simpa [Prod.ext_iff] using heq
      subst h1; subst h2; subst h3
      have hu2p : u.2 ≤ pStart := hcl u (List.mem_cons_self u rest) hlt
      obtain ⟨iht, ihi, ihp, ihpw, ihrem, ihall⟩ :=
        ih pStart u.2 len hpwc.2
          (fun v hv => ⟨hpwc.1 v hv, (hb v (List.mem_cons_of_mem u hv)).2.1,
            (hb v (List.mem_cons_of_mem u hv)).2.2⟩)
          hu2p (fun v hv => hcl v (List.mem_cons_of_mem u hv))
          rus ridx rapp hr
      refine ⟨?_, ?_, ihp, ihpw, ?_, ?_⟩
      · refine tiles_append ?_ (⟨rfl, by omega, iht⟩ : tiles u.1 ridx (u :: rapp))
        by_cases hgap : idx < u.1
        · rw [if_pos hgap]
          exact ⟨rfl, by omega, rfl⟩
        · rw [if_neg hgap]
          show idx = u.1
          omega
      · omega
      · intro v hv
        obtain ⟨a1, a2, a3, a4⟩ := ihrem v hv
        exact ⟨a1, a2, a3, List.mem_cons_of_mem u a4⟩
      · intro v hv
        rcases List.mem_cons.mp hv with hv | hv
        · subst hv
          exact Or.inl (List.mem_append_right _ (List.mem_cons_self v rapp))
        · rcases ihall v hv with hin | hin
          · exact Or.inl (List.mem_append_right _ (List.mem_cons_of_mem u hin))
          · exact Or.inr hin
    · rw [popUntouchables_cons_ge u rest pStart idx hlt] at heq
      obtain ⟨h1, h2, h3⟩ : u :: rest = us' ∧ idx = idx' ∧
          ([] : List SRange) = app := by
        simpa [Prod.ext_iff] using heq
      subst h1; subst h2; subst h3
      refine ⟨rfl, le_refl idx, hip, hpw, ?_, fun v hv => Or.inr hv⟩
      intro v hv
      rcases List.mem_cons.mp hv with hv | hv
      · subst hv
        exact ⟨by omega, hu.2.1, hu.2.2, List.mem_cons_self v rest⟩
      · have hv2 := hb v (List.mem_cons_of_mem u hv)
        have := hpwc.1 v hv
        exact ⟨by omega, hv2.2.1, hv2.2.2, List.mem_cons_of_mem u hv⟩

/-- The main invariant of the slice-buffer fold: starting from a buffer
tiling the consumed region, ordered disjoint well-formed patches and
untouchables produce a buffer tiling the consumed region, with every
untouchable either emitted or still pending after the final index, and
every patch consumed before the final index. -/
theorem patchFold_spec :
    ∀ (ps : List Patch) (us : List SRange) (idx : Nat) (buff : List SRange)
      (len : Nat),
      tiles 0 idx buff →
      idx ≤ len →
      us.Pairwise (fun u v => u.2 ≤ v.1) →
      (∀ u ∈ us, idx ≤ u.1 ∧ u.1 < u.2 ∧ u.2 ≤ len) →
      ps.Pairwise (fun p q => p.1.2 ≤ q.1.1) →
      (∀ p ∈ ps, idx ≤ p.1.1 ∧ p.1.1 ≤ p.1.2 ∧ p.1.2 ≤ len) →
      (∀ p ∈ ps, ∀ u ∈ us, p.1.2 ≤ u.1 ∨ u.2 ≤ p.1.1) →
      ∀ us' idx' buff', ps.foldl patchStep (us, idx, buff) = (us', idx', buff') →
        tiles 0 idx' buff' ∧ idx ≤ idx' ∧ idx' ≤ len ∧
        (∀ u ∈ us', idx' ≤ u.1 ∧ u.1 < u.2 ∧ u.2 ≤ len) ∧
        (∀ u ∈ us, u ∈ buff' ∨ u ∈ us') ∧
        (∀ p ∈ ps, p.1.2 ≤ idx') ∧
        (∀ r ∈ buff, r ∈ buff') := by
  intro ps
  induction ps with
  | nil =>
    intro us idx buff len htl hil hupw hub _ _ _ us' idx' buff' heq
    obtain ⟨h1, h2, h3⟩ : us = us' ∧ idx = idx' ∧ buff = buff' := by
      simpa [Prod.ext_iff] using heq
    subst h1; subst h2; subst h3
    exact ⟨htl, le_refl idx, hil,
      fun u hu => hub u hu, fun u hu => Or.inr hu,
      fun p hp => absurd hp (List.not_mem_nil p), fun r hr => hr⟩
  | cons p ps ih =>
    intro us idx buff len htl hil hupw hub hppw hpb hd us' idx' buff' heq
    rw [List.foldl_cons] at heq
    have hp := hpb p (List.mem_cons_self p ps)
    have hppwc := List.pairwise_cons.mp hppw
    rcases hpop : popUntouchables us p.1.1 idx with ⟨rus, ridx, rapp⟩
    obtain ⟨popt, popi, popp, poppw, poprem, popall⟩ :=
      popUntouchables_spec us p.1.1 idx len hupw hub hp.1
        (by
          intro v hv hlt
          rcases hd p (List.mem_cons_self p ps) v hv with hc | hc
          · omega
          · exact hc)
        rus ridx rapp hpop
    -- the untouchables remaining after the pop start after the patch end
    have hrusb : ∀ v ∈ rus, p.1.2 ≤ v.1 ∧ v.1 < v.2 ∧ v.2 ≤ len := by
      intro v hv
      obtain ⟨b1, b2, b3, b4⟩ := poprem v hv
      rcases hd p (List.mem_cons_self p ps) v b4 with hc | hc
      · exact ⟨hc, b2, b3⟩
      · omega
    -- characterize the patch step
    have hstep : ∃ tail, patchStep (us, idx, buff) p = (rus, p.1.2, (buff ++ rapp) ++ tail) ∧
        tiles ridx p.1.2 tail := by
      by_cases hgt : ridx < p.1.1
      · refine ⟨[(ridx, p.1.1), p.1], ?_, ?_⟩
        · simp only [patchStep, hpop]
          rw [if_pos hgt]
        · exact ⟨rfl, by omega, rfl, hp.2.1, rfl⟩
      · have heqx : p.1.1 = ridx := by omega
        refine ⟨[p.1], ?_, ?_⟩
        · simp only [patchStep, hpop]
          rw [if_neg (by omega : ¬ p.1.1 > ridx), if_neg (by omega : ¬ p.1.1 < ridx)]
        · exact ⟨heqx.symm ▸ rfl, hp.2.1, rfl⟩
    obtain ⟨tail, hstepEq, htail⟩ := hstep
    rw [hstepEq] at heq
    have hnewt : tiles 0 p.1.2 ((buff ++ rapp) ++ tail) :=
      tiles_append (tiles_append htl popt) htail
    obtain ⟨iht, ihi, ihl, ihrem, ihall, ihpe, ihgrow⟩ :=
      ih rus p.1.2 ((buff ++ rapp) ++ tail) len hnewt hp.2.2 poppw hrusb
        hppwc.2
        (fun q hq => ⟨hppwc.1 q hq, (hpb q (List.mem_cons_of_mem p hq)).2.1,
          (hpb q (List.mem_cons_of_mem p hq)).2.2⟩)
        (fun q hq v hv => hd q (List.mem_cons_of_mem p hq) v (poprem v hv).2.2.2)
        us' idx' buff' heq
    refine ⟨iht, by omega, ihl, ihrem, ?_, ?_, ?_⟩
    · intro v hv
      rcases popall v hv with hin | hin
      · exact Or.inl (ihgrow v
          (List.mem_append_left tail (List.mem_append_right buff hin)))
      · exact ihall v hin
    · intro q hq
      rcases List.mem_cons.mp hq with hq | hq
      · subst hq; omega
      · exact ihpe q hq
    · intro r hr
      exact ihgrow r (List.mem_append_left tail (List.mem_append_left rapp hr))

/-- C4 counterexample: a run of the slice-buffer construction on sorted,
disjoint untouchables where a patch starts before and reaches into an
untouchable range.  The resulting buffer contains the overlapping slices
(3,8) and (5,10), so the buffer is not pairwise non-overlapping and the
source bytes 5 to 7 appear twice in the output. -/
theorem slice_buffer_overlap_example :
    buildSliceBuff (dedupe c4patches) c4untouchables c4source.length =
      [(0, 3), (3, 8), (5, 10), (10, 11), (11, 12)] ∧
    ¬ (buildSliceBuff (dedupe c4patches) c4untouchables
        c4source.length).Pairwise (fun r s => r.2 ≤ s.1) := by
  constructor
  · decide
  · decide

/-- C4 amended: when the deduplicated source-space patches are ordered,
pairwise disjoint and within bounds, the untouchable ranges are sorted,
disjoint, nonempty and within bounds, and patches are disjoint from
untouchables, the final slice buffer tiles the source: consecutive
slices abut, slices are pairwise non-overlapping and in nondecreasing
start order, and every source offset is covered by exactly one slice. -/
theorem slice_buffer_tiles_when_disjoint (source : Str)
    (patches : List Patch) (us : List SRange)
    (hp : patchesWF (dedupe patches) source.length)
    (hu : untouchablesWF us source.length)
    (hd : patchesUntouchablesDisjoint (dedupe patches) us) :
    tiles 0 source.length
      (buildSliceBuff (dedupe patches) us source.length) ∧
    (buildSliceBuff (dedupe patches) us source.length).Pairwise
      (fun r s => r.2 ≤ s.1) ∧
    ∀ k, k < source.length →
      ∃! r : SRange,
        r ∈ buildSliceBuff (dedupe patches) us source.length ∧
        r.1 ≤ k ∧ k < r.2 := by
  rcases hF : (dedupe patches).foldl patchStep (us, 0, ([] : List SRange))
    with ⟨us', idx', buff'⟩
  obtain ⟨ft, _, fl, _, _, _, _⟩ :=
    patchFold_spec (dedupe patches) us 0 [] source.length rfl
      (Nat.zero_le _) hu.1
      (fun u hu' => ⟨Nat.zero_le _, (hu.2 u hu').1, (hu.2 u hu').2⟩)
      hp.1
      (fun p hp' => ⟨Nat.zero_le _, (hp.2 p hp').1, (hp.2 p hp').2⟩)
      hd us' idx' buff' hF
  have hB : buildSliceBuff (dedupe patches) us source.length =
      if idx' < source.length then buff' ++ [(idx', source.length)]
      else buff' := by
    simp only [buildSliceBuff, hF]
  have htiles : tiles 0 source.length
      (buildSliceBuff (dedupe patches) us source.length) := by
    rw [hB]
    by_cases hlt : idx' < source.length
    · rw [if_pos hlt]
      exact tiles_append ft ⟨rfl, by omega, rfl⟩
    · rw [if_neg hlt]
      have hx : idx' = source.length := by omega
      rw [← hx]
      exact ft
  refine ⟨htiles, tiles_pairwise htiles, ?_⟩
  intro k hk
  obtain ⟨r, hr, h1, h2⟩ := tiles_cover htiles k (Nat.zero_le k) hk
  refine ⟨r, ⟨hr, h1, h2⟩, ?_⟩
  rintro r2 ⟨hr2, h21, h22⟩
  exact tiles_cover_unique htiles r2 hr2 r hr k h21 h22 h1 h2

/-- Witness for C4 on a disjoint concrete patch and untouchable set. -/
theorem slice_buffer_tiles_when_disjoint_witness :
    tiles 0 w3source.length
      (buildSliceBuff (dedupe w3patches) w3untouchables w3source.length) ∧
    (buildSliceBuff (dedupe w3patches) w3untouchables
        w3source.length).Pairwise (fun r s => r.2 ≤ s.1) ∧
    ∀ k, k < w3source.length →
      ∃! r : SRange,
        r ∈ buildSliceBuff (dedupe w3patches) w3untouchables
          w3source.length ∧
        r.1 ≤ k ∧ k < r.2 :=
  slice_buffer_tiles_when_disjoint w3source w3patches w3untouchables
    (by decide) (by decide) (by decide)

/-- C3 counterexample: a patch covering the whole source replaces the
untouchable range (1,4) along with everything else.  The output of
`fix_string` is the single character X, so the untouchable content bcd
appears nowhere in the output: the untouchable region was not copied
verbatim but replaced by a patch. -/
theorem fix_string_untouchable_replaced :
    (1, 4) ∈ c3untouchables ∧
    ¬ ∃ a b : Str, (fix_string c3source c3patches c3untouchables).1 =
      a ++ subStr c3source (1, 4) ++ b := by
  refine ⟨by decide, ?_⟩
  rintro ⟨a, b, h⟩
  have hout : (fix_string c3source c3patches c3untouchables).1 = ['X'] := by
    decide
  have hsub : subStr c3source (1, 4) = ['b', 'c', 'd'] := by decide
  rw [hout, hsub] at h
  have hlen := congrArg List.length h
  simp [List.length_append] at hlen
  omega

/-- C3 amended: when the deduplicated source-space patches are ordered,
pairwise disjoint and within bounds, the untouchable ranges are sorted,
disjoint, nonempty and within bounds, and every patch range is disjoint
from every untouchable range, each untouchable region appears verbatim
in the output of `fix_string`: its source bytes occur contiguously and
unchanged in the returned string. -/
theorem fix_string_untouchables_preserved (source : Str)
    (patches : List Patch) (us : List SRange)
    (hp : patchesWF (dedupe patches) source.length)
    (hu : untouchablesWF us source.length)
    (hd : patchesUntouchablesDisjoint (dedupe patches) us) :
    ∀ u ∈ us, ∃ a b : Str,
      (fix_string source patches us).1 = a ++ subStr source u ++ b := by
  intro u humem
  rcases hF : (dedupe patches).foldl patchStep (us, 0, ([] : List SRange))
    with ⟨us', idx', buff'⟩
  obtain ⟨ft, _, fl, frem, fall, fpe, _⟩ :=
    patchFold_spec (dedupe patches) us 0 [] source.length rfl
      (Nat.zero_le _) hu.1
      (fun v hv => ⟨Nat.zero_le _, (hu.2 v hv).1, (hu.2 v hv).2⟩)
      hp.1
      (fun p hp' => ⟨Nat.zero_le _, (hp.2 p hp').1, (hp.2 p hp').2⟩)
      hd us' idx' buff' hF
  have hB : buildSliceBuff (dedupe patches) us source.length =
      if idx' < source.length then buff' ++ [(idx', source.length)]
      else buff' := by
    simp only [buildSliceBuff, hF]
  have hout : (fix_string source patches us).1 =
      renderAll (dedupe patches) source
        (buildSliceBuff (dedupe patches) us source.length) := rfl
  have huu := hu.2 u humem
  have hne : ∀ p ∈ dedupe patches, p.1 ≠ u := by
    intro p hp' heq
    have h2 : p.1.2 = u.2 := by rw [heq]
    have h1 : p.1.1 = u.1 := by rw [heq]
    rcases hd p hp' u humem with hc | hc <;> omega
  rcases fall u humem with hin | hin
  · have hinB : u ∈ buildSliceBuff (dedupe patches) us source.length := by
      rw [hB]
      by_cases hlt : idx' < source.length
      · rw [if_pos hlt]
        exact List.mem_append_left _ hin
      · rw [if_neg hlt]
        exact hin
    obtain ⟨l1, l2, hsplit⟩ := List.append_of_mem hinB
    rw [hout, hsplit, renderAll_append, renderAll_cons,
      renderSlice_raw _ _ _ hne]
    exact ⟨renderAll (dedupe patches) source l1,
      renderAll (dedupe patches) source l2, by simp [List.append_assoc]⟩
  · have hiu := frem u hin
    have hlt : idx' < source.length := by omega
    have hBt : buildSliceBuff (dedupe patches) us source.length =
        buff' ++ [(idx', source.length)] := by
      rw [hB, if_pos hlt]
    have hnet : ∀ p ∈ dedupe patches, p.1 ≠ (idx', source.length) := by
      intro p hp' heq
      have h2 : p.1.2 = source.length := by rw [heq]
      have := fpe p hp'
      omega
    rw [hout, hBt, renderAll_append, renderAll_cons,
      renderSlice_raw _ _ _ hnet]
    have hnil : renderAll (dedupe patches) source ([] : List SRange) = [] := rfl
    rw [hnil, List.append_nil]
    rw [subStr_split source idx' u.1 source.length (by omega) (by omega)]
    rw [subStr_split source u.1 u.2 source.length (by omega) (by omega)]
    refine ⟨renderAll (dedupe patches) source buff' ++
      subStr source (idx', u.1), subStr source (u.2, source.length), ?_⟩
    have hueta : subStr source (u.1, u.2) = subStr source u := rfl
    rw [hueta]
    simp [List.append_assoc]

/-- Witness for C3: the untouchable range (2,4) is preserved verbatim. -/
theorem fix_string_untouchables_preserved_witness :
    ∃ a b : Str, (fix_string w3source w3patches w3untouchables).1 =
      a ++ subStr w3source (2, 4) ++ b :=
  fix_string_untouchables_preserved w3source w3patches w3untouchables
    (by decide) (by decide) (by decide) (2, 4) (by decide)

end SqlFluff
